import Mathlib

/-!
Verification of the capacity-computation pipeline of the re-entrant-cube
tutorial notebook (`src/notebooks/reentrant_cube_capacity.ipynb`).

The notebook wires together boundary-element primitives of an external BEM
library (operator assembly, GMRES, grid refinement, integration, per-element
surface-gradient norms).  The glue code that lives in the notebook itself —
the `diameter` function, the `one_fun` right-hand side, the operator
composition `lhs = slp * hyp_regularized`, the recovery `sol_fun =
hyp_regularized * x`, the capacity `-sol_fun.integrate()`, and the two
error-estimation loops — is embedded directly.  Library primitives that the
claims depend on but whose code is not in the repository are modelled from
the specification, each marked `Modelled from the spec:` in its doc comment.
Recorded cell outputs of the notebook (iteration count, capacity, error
estimates) are embedded as data, since they are part of the source file.
-/

namespace ReentrantCube

/-! ### Geometry: points, distances, element diameter -/

/-- A point in 3D space, with rational coordinates (the mesh vertex data). -/
structure Point where
  x : ℚ
  y : ℚ
  z : ℚ
deriving DecidableEq

/-- Componentwise difference of two points, `corners[:,i] - corners[:,j]`. -/
def Point.sub (p q : Point) : Point :=
  ⟨p.x - q.x, p.y - q.y, p.z - q.z⟩

/-- Squared Euclidean length of a coordinate vector (rational, exact). -/
def Point.normSq (p : Point) : ℚ :=
  p.x ^ 2 + p.y ^ 2 + p.z ^ 2

/-- Euclidean length `np.linalg.norm` of a coordinate vector. -/
noncomputable def npNorm (p : Point) : ℝ :=
  Real.sqrt ((p.normSq : ℝ))

/-- Euclidean distance between two points, `np.linalg.norm(a - b)`. -/
noncomputable def dist3 (p q : Point) : ℝ :=
  npNorm (p.sub q)

/-- An element of the surface triangulation: its three corner coordinates
(`element.geometry.corners`). -/
structure Element where
  c0 : Point
  c1 : Point
  c2 : Point
deriving DecidableEq

/-- Maximum of a list of reals, `np.max`; on the lists the notebook builds the
list is nonempty and this is its largest entry. -/
noncomputable def npMax (l : List ℝ) : ℝ :=
  l.foldl max (l.headD 0)

/-- The notebook's `diameter` function: the three pairwise corner distances
`d0 = |c0 - c1|`, `d1 = |c0 - c2|`, `d2 = |c1 - c2|`, combined with
`np.max([d0, d1, d2])`. -/
noncomputable def diameter (element : Element) : ℝ :=
  npMax [dist3 element.c0 element.c1, dist3 element.c0 element.c2,
         dist3 element.c1 element.c2]

theorem dist3_nonneg (p q : Point) : 0 ≤ dist3 p q :=
  Real.sqrt_nonneg _

theorem diameter_nonneg (e : Element) : 0 ≤ diameter e := by
  unfold diameter npMax
  simp only [List.headD_cons, List.foldl_cons, List.foldl_nil]
  have h0 := dist3_nonneg e.c0 e.c1
  exact le_trans h0 (le_trans (le_max_left _ _)
    (le_trans (le_max_left _ _) (le_max_left _ _)))

/-- C8: for every mesh element, the diameter computed by the estimator equals
the maximum of the three pairwise distances between the element's corner
coordinates, `max (|c0 - c1|) (max (|c0 - c2|) (|c1 - c2|))`. -/
theorem diameter_eq_max_pairwise_dist (e : Element) :
    diameter e =
      max (dist3 e.c0 e.c1) (max (dist3 e.c0 e.c2) (dist3 e.c1 e.c2)) := by
  unfold diameter npMax
  simp [max_assoc]

/-! ### Recorded outputs of the notebook's stored execution

The notebook stores the outputs of its code cells.  Cell 4 records
`Number of iterations: 6` and `The capacity is 8.1104817108.`; cell 8 records
`Total H^(-1/2) error estimate for normal derivative: 0.0` and
`Error estimate for capacity: 0.0`.  These recorded values are data of the
source file and are embedded verbatim. -/

/-- Recorded output of the solver cell: the GMRES iteration count. -/
def recorded_it_count : ℕ := 6

/-- Recorded output of the solver cell: the reported capacity value
`8.1104817108`. -/
def recorded_capacity : ℚ := 81104817108 / 10000000000

/-- Recorded output of the estimator cell: the total error estimate for the
normal derivative. -/
def recorded_total_error : ℚ := 0

/-- Recorded output of the estimator cell: the error estimate for the
capacity. -/
def recorded_capacity_error_estimate : ℚ := 0

/-- C3: on the recorded re-entrant-cube run (unit edge, h = 0.05), the
preconditioned GMRES solve converged in exactly 6 iterations and the reported
capacity differs from 8.11 by less than 0.01. -/
theorem recorded_run_iterations_and_capacity :
    recorded_it_count = 6 ∧ |recorded_capacity - 811 / 100| < 1 / 100 := by
  constructor
  · rfl
  · rw [recorded_capacity]
    rw [abs_lt]
    constructor <;> norm_num

/-- C2: the recorded run violates the claim — the stored total error estimate
and capacity-error estimate are exactly 0.0 even though the stored solution is
non-degenerate (the recorded capacity is nonzero and the solve converged). -/
theorem recorded_total_error_zero_despite_nonzero_solution :
    recorded_total_error = 0 ∧ recorded_capacity_error_estimate = 0 ∧
      recorded_capacity ≠ 0 := by
  refine ⟨rfl, rfl, ?_⟩
  rw [recorded_capacity]
  norm_num

/-! ### Discretised boundary operators and the preconditioned solve

In strong form every boundary operator acts on coefficient vectors, so an
operator is a matrix and a discrete function is a vector of coefficients.
With the `dual` space choice the single-layer space (piecewise constants on
the dual grid) and the hypersingular space (continuous piecewise linears on
the original grid) both have one degree of freedom per mesh vertex, so all
matrices of the solve are square of the same size `n`. -/

/-- Coefficient vector of a discrete function over `n` degrees of freedom. -/
abbrev Vec (n : ℕ) := Fin n → ℚ

/-- A boundary operator in strong (coefficient) form. -/
abbrev Mat (n : ℕ) := Matrix (Fin n) (Fin n) ℚ

/-- The notebook's right-hand-side callback `one_fun`, which writes the value
`-1` at every boundary point (`res[0] = -1`). -/
def one_fun (_x : Point) : ℚ := -1

/-- Modelled from the spec: `bempp.api.GridFunction(slp.range, fun=one_fun)` —
the discrete function representing the constant value −1 in V's range space;
in coefficient form its vector is constantly `one_fun` of the node. -/
def rhs_fun (n : ℕ) : Vec n := fun _ => one_fun ⟨0, 0, 0⟩

/-- Coefficient vector of the constant-one function (nodal basis). -/
def onesVec (n : ℕ) : Vec n := fun _ => 1

/-- Modelled from the spec: `bempp.api.RankOneBoundaryOperator` — the rank-one
regularising operator R with weak form ⟨Rw, v⟩ = ⟨w, 1⟩⟨v, 1⟩; writing `q` for
the vector pairing a coefficient vector with the constant-one function
(`⟨w, 1⟩ = q ⬝ᵥ w`), its matrix is the outer product of `q` with itself. -/
def rank_one_op {n : ℕ} (q : Vec n) : Mat n := Matrix.vecMulVec q q

/-- The notebook's regularised hypersingular operator,
`hyp_regularized = hyp + rank_one_op`. -/
def hyp_regularized {n : ℕ} (hyp : Mat n) (q : Vec n) : Mat n :=
  hyp + rank_one_op q

/-- The notebook's system operator, `lhs = slp * hyp_regularized`. -/
def lhs {n : ℕ} (slp hypReg : Mat n) : Mat n := slp * hypReg

/-- The notebook's recovery of the physical solution,
`sol_fun = hyp_regularized * x`. -/
def sol_fun {n : ℕ} (hypReg : Mat n) (x : Vec n) : Vec n := hypReg.mulVec x

/-- Modelled from the spec: `integrate()` returns the definite integral of the
represented function over the whole surface, implemented as a dot product of
coefficients with a fixed per-space quadrature-weight vector `w`. -/
def integrate {n : ℕ} (w coeffs : Vec n) : ℚ := Matrix.dotProduct w coeffs

/-- The notebook's reported capacity, `-sol_fun.integrate()[0,0]`. -/
def reported_capacity {n : ℕ} (w : Vec n) (sol : Vec n) : ℚ :=
  -(integrate w sol)

/-- C1: the pipeline solves the preconditioned system (V·W̃)·x = −1 — whose
right-hand side is the constant −1 vector — and whenever the Krylov solve
produced an `x` satisfying that system, the recovered solution φ = W̃·x solves
the original equation V·φ = −1, and the reported capacity is the negated
whole-surface integral of φ. -/
theorem pipeline_solves_preconditioned_system {n : ℕ}
    (slp hyp : Mat n) (q w x : Vec n)
    (hx : (lhs slp (hyp_regularized hyp q)).mulVec x = rhs_fun n) :
    (∀ i, rhs_fun n i = -1) ∧
    slp.mulVec (sol_fun (hyp_regularized hyp q) x) = rhs_fun n ∧
    reported_capacity w (sol_fun (hyp_regularized hyp q) x) =
      -(integrate w (sol_fun (hyp_regularized hyp q) x)) := by
  refine ⟨fun i => rfl, ?_, rfl⟩
  rw [sol_fun, Matrix.mulVec_mulVec]
  exact hx

/-- Witness for C1 at a concrete one-dimensional system: `slp = (1)`,
`hyp = (0)`, `q = (1)` (so `hyp_regularized = (1)`), `x = (-1)` solves the
preconditioned system, and the conclusions hold there. -/
theorem pipeline_solves_preconditioned_system_witness :
    (∀ i, rhs_fun 1 i = -1) ∧
    (1 : Mat 1).mulVec (sol_fun (hyp_regularized 0 (onesVec 1)) (fun _ => -1))
      = rhs_fun 1 ∧
    reported_capacity (onesVec 1)
        (sol_fun (hyp_regularized 0 (onesVec 1)) (fun _ => -1)) =
      -(integrate (onesVec 1)
        (sol_fun (hyp_regularized 0 (onesVec 1)) (fun _ => -1))) :=
  pipeline_solves_preconditioned_system 1 0 (onesVec 1) (onesVec 1)
    (fun _ => -1) (by
      funext i
      simp [lhs, hyp_regularized, rank_one_op, rhs_fun, one_fun, onesVec,
        Matrix.mulVec, Matrix.vecMulVec, Matrix.dotProduct])

/-! ### Regularisation of the hypersingular operator -/

/-- Applying the rank-one regulariser to a coefficient vector scales the
pairing vector `q` by the pairing of `q` with the input. -/
theorem rank_one_op_mulVec {n : ℕ} (q v : Vec n) :
    (rank_one_op q).mulVec v = fun i => q i * Matrix.dotProduct q v := by
  funext i
  rw [rank_one_op, Matrix.mulVec, Matrix.dotProduct, Matrix.dotProduct,
    Finset.mul_sum]
  refine Finset.sum_congr rfl fun j _ => ?_
  rw [Matrix.vecMulVec_apply]
  ring

/-- Pairing against a symmetric matrix can be flipped. -/
theorem dot_mulVec_symm {n : ℕ} (W : Mat n) (hsym : W.transpose = W)
    (u v : Vec n) :
    Matrix.dotProduct u (W.mulVec v) = Matrix.dotProduct v (W.mulVec u) := by
  rw [Matrix.dotProduct_mulVec]
  conv_lhs => rw [← hsym]
  rw [Matrix.vecMul_transpose, Matrix.dotProduct_comm]

/-- Expansion of the quadratic form along a line: for a symmetric `W` with
`⟨v, Wv⟩ = 0`, the form at `v + t • u` is `2 t ⟨u, Wv⟩ + t² ⟨u, Wu⟩`. -/
theorem quadratic_form_line {n : ℕ} (W : Mat n) (hsym : W.transpose = W)
    (u v : Vec n) (hv : Matrix.dotProduct v (W.mulVec v) = 0) (t : ℚ) :
    Matrix.dotProduct (v + t • u) (W.mulVec (v + t • u)) =
      2 * t * Matrix.dotProduct u (W.mulVec v) +
        t ^ 2 * Matrix.dotProduct u (W.mulVec u) := by
  rw [Matrix.mulVec_add, Matrix.mulVec_smul, Matrix.add_dotProduct,
    Matrix.smul_dotProduct, Matrix.dotProduct_add, Matrix.dotProduct_add,
    Matrix.dotProduct_smul, Matrix.dotProduct_smul, hv,
    dot_mulVec_symm W hsym v u]
  push_cast [smul_eq_mul]
  ring

/-- A vector with vanishing quadratic form under a symmetric positive
semi-definite matrix lies in that matrix's kernel. -/
theorem psd_mulVec_eq_zero {n : ℕ} (W : Mat n) (hsym : W.transpose = W)
    (hpsd : ∀ v, 0 ≤ Matrix.dotProduct v (W.mulVec v)) (v : Vec n)
    (hv : Matrix.dotProduct v (W.mulVec v) = 0) : W.mulVec v = 0 := by
  have key : ∀ u : Vec n, Matrix.dotProduct u (W.mulVec v) = 0 := by
    intro u
    set s := Matrix.dotProduct u (W.mulVec v) with hs
    set α := Matrix.dotProduct u (W.mulVec u) with hα
    have hline : ∀ t : ℚ, 0 ≤ 2 * t * s + t ^ 2 * α := fun t => by
      rw [← quadratic_form_line W hsym u v hv t]
      exact hpsd _
    by_contra hsne
    have hs2 : 0 < s ^ 2 :=
      lt_of_le_of_ne (sq_nonneg s) (Ne.symm (pow_ne_zero 2 hsne))
    have hα0 : 0 ≤ α := hpsd u
    rcases eq_or_lt_of_le hα0 with hz | hpos
    · have h1 := hline (-s)
      rw [← hz] at h1
      nlinarith [h1, hs2]
    · have h1 := hline (-s / α)
      have h2 : 2 * (-s / α) * s + (-s / α) ^ 2 * α = -s ^ 2 / α := by
        field_simp
        ring
      rw [h2] at h1
      have h3 : -s ^ 2 / α < 0 := div_neg_of_neg_of_pos (by linarith) hpos
      linarith
  funext i
  have h := key (Pi.single i 1)
  rw [Matrix.single_dotProduct] at h
  simpa using h

/-- C6: with the assembled hypersingular matrix `W` symmetric, positive
semi-definite, with kernel exactly the constants and annihilating the
constant-one vector, and with the surface pairing ⟨1, 1⟩ nonzero, the
regularised operator W̃ = W + R applied to the constant-one function is
nonzero, the unregularised W applied to it is zero, and W̃ is injective. -/
theorem regularization_property {n : ℕ} (hypM : Mat n) (q : Vec n)
    (hsym : hypM.transpose = hypM)
    (hpsd : ∀ v, 0 ≤ Matrix.dotProduct v (hypM.mulVec v))
    (hker : ∀ v, hypM.mulVec v = 0 → ∃ c : ℚ, v = fun _ => c)
    (hone : hypM.mulVec (onesVec n) = 0)
    (harea : Matrix.dotProduct q (onesVec n) ≠ 0) :
    (hyp_regularized hypM q).mulVec (onesVec n) ≠ 0 ∧
    hypM.mulVec (onesVec n) = 0 ∧
    Function.Injective ((hyp_regularized hypM q).mulVec) := by
  have hreg : ∀ v, (hyp_regularized hypM q).mulVec v =
      hypM.mulVec v + fun i => q i * Matrix.dotProduct q v := by
    intro v
    rw [hyp_regularized, Matrix.add_mulVec, rank_one_op_mulVec]
  have hqone : ∀ c : ℚ, Matrix.dotProduct q (fun _ => c) =
      c * Matrix.dotProduct q (onesVec n) := by
    intro c
    rw [Matrix.dotProduct, Matrix.dotProduct, Finset.mul_sum]
    exact Finset.sum_congr rfl fun j _ => by rw [onesVec]; ring
  refine ⟨?_, hone, ?_⟩
  · intro hzero
    rw [hreg, hone, zero_add] at hzero
    have hq : ∀ i, q i = 0 := by
      intro i
      have h := congrFun hzero i
      simp only [Pi.zero_apply] at h
      rcases mul_eq_zero.mp h with h | h
      · exact h
      · exact absurd h harea
    apply harea
    rw [Matrix.dotProduct]
    exact Finset.sum_eq_zero fun i _ => by rw [hq i, zero_mul]
  · intro a b hab
    have hu : (hyp_regularized hypM q).mulVec (a - b) = 0 := by
      rw [Matrix.mulVec_sub, hab, sub_self]
    set u := a - b with hudef
    rw [hreg] at hu
    have hpair : Matrix.dotProduct u (hypM.mulVec u) +
        Matrix.dotProduct q u ^ 2 = 0 := by
      have h := congrArg (Matrix.dotProduct u) hu
      rw [Matrix.dotProduct_add, Matrix.dotProduct_zero] at h
      have h2 : (Matrix.dotProduct u fun i => q i * Matrix.dotProduct q u) =
          Matrix.dotProduct q u ^ 2 := by
        rw [Matrix.dotProduct]
        have : ∀ j ∈ Finset.univ, u j * (q j * Matrix.dotProduct q u) =
            Matrix.dotProduct q u * (q j * u j) := fun j _ => by ring
        rw [Finset.sum_congr rfl this, ← Finset.mul_sum, ← Matrix.dotProduct,
          sq]
      rw [h2] at h
      exact h
    have hW : Matrix.dotProduct u (hypM.mulVec u) = 0 := by
      have h1 := hpsd u
      have h2 := sq_nonneg (Matrix.dotProduct q u)
      linarith
    have hqu : Matrix.dotProduct q u = 0 := by
      have h2 := sq_nonneg (Matrix.dotProduct q u)
      have : Matrix.dotProduct q u ^ 2 = 0 := by linarith
      exact pow_eq_zero_iff (two_ne_zero) |>.mp this
    have hWu : hypM.mulVec u = 0 := psd_mulVec_eq_zero hypM hsym hpsd u hW
    obtain ⟨c, hc⟩ := hker u hWu
    have hc0 : c = 0 := by
      rw [hc, hqone] at hqu
      rcases mul_eq_zero.mp hqu with h | h
      · exact h
      · exact absurd h harea
    have : u = 0 := by
      rw [hc, hc0]
      funext i
      rfl
    have := sub_eq_zero.mp (hudef ▸ this)
    exact this

/-- Witness for C6 at the concrete one-dimensional data `W = (0)`,
`q = (1)`: all hypotheses hold and so do the three conclusions. -/
theorem regularization_property_witness :
    (hyp_regularized (0 : Mat 1) (onesVec 1)).mulVec (onesVec 1) ≠ 0 ∧
    (0 : Mat 1).mulVec (onesVec 1) = 0 ∧
    Function.Injective ((hyp_regularized (0 : Mat 1) (onesVec 1)).mulVec) :=
  regularization_property 0 (onesVec 1)
    (by simp)
    (fun v => by simp [Matrix.zero_mulVec, Matrix.dotProduct_zero])
    (fun v _ => ⟨v 0, by funext i; simp [Fin.eq_zero i]⟩)
    (by simp [Matrix.zero_mulVec])
    (by norm_num [Matrix.dotProduct, onesVec, Fin.sum_univ_one])

/-! ### The Krylov solver's stopping behaviour -/

/-- Modelled from the spec: `bempp.api.linalg.gmres` — a GMRES-family Krylov
iteration in strong (coefficient) form.  `step` advances the iterate, `tolMet`
is the relative-residual stopping test, `cap` is the iteration cap.  The
solver stops as soon as the tolerance is met, or when the cap is exhausted,
whichever comes first; in the latter case it still returns the current
iterate, with the convergence flag `false`, rather than failing.  It returns
the iterate, the convergence flag and the iteration count. -/
def krylovSolve {α : Type} (step : α → α) (tolMet : α → Bool) :
    ℕ → α → α × Bool × ℕ
  | 0, x => (x, tolMet x, 0)
  | cap + 1, x =>
    if tolMet x then (x, true, 0)
    else
      let r := krylovSolve step tolMet cap (step x)
      (r.1, r.2.1, r.2.2 + 1)

/-- C9: the Krylov solver is total — it always returns an iterate, a flag and
a count — and when it reaches the iteration cap without meeting the tolerance
(flag `false`), the returned iterate is its best (final) iterate `step^[cap]
x0`, the count equals the cap, and the tolerance is indeed unmet there; no
failure is raised, the decision is left to the caller. -/
theorem krylov_cap_reached_returns_best_iterate {α : Type}
    (step : α → α) (tolMet : α → Bool) (cap : ℕ) (x0 : α)
    (hflag : (krylovSolve step tolMet cap x0).2.1 = false) :
    (krylovSolve step tolMet cap x0).1 = step^[cap] x0 ∧
    (krylovSolve step tolMet cap x0).2.2 = cap ∧
    tolMet ((krylovSolve step tolMet cap x0).1) = false := by
  induction cap generalizing x0 with
  | zero =>
    rw [krylovSolve] at hflag ⊢
    exact ⟨rfl, rfl, hflag⟩
  | succ c ih =>
    rw [krylovSolve] at hflag ⊢
    by_cases h : tolMet x0 = true
    · rw [if_pos h] at hflag
      exact absurd hflag (by simp)
    · rw [if_neg h] at hflag ⊢
      simp only at hflag ⊢
      obtain ⟨h1, h2, h3⟩ := ih (step x0) hflag
      refine ⟨?_, ?_, h3⟩
      · rw [h1, Function.iterate_succ_apply]
      · rw [h2]

/-- Witness for C9: with the never-satisfied tolerance test and the successor
step on naturals, the solver caps out after 3 iterations at iterate 3 with
flag `false`. -/
theorem krylov_cap_reached_returns_best_iterate_witness :
    (krylovSolve Nat.succ (fun _ => false) 3 0).1 = Nat.succ^[3] 0 ∧
    (krylovSolve Nat.succ (fun _ => false) 3 0).2.2 = 3 ∧
    (fun _ : ℕ => false) ((krylovSolve Nat.succ (fun _ => false) 3 0).1)
      = false :=
  krylov_cap_reached_returns_best_iterate Nat.succ (fun _ => false) 3 0
    (by rfl)

/-! ### Residual error estimator: the barycentric loop -/

/-- The notebook's injection of the solution into the discontinuous
piecewise-linear space on the barycentric refinement,
`base_sol_fun = map_to_base_space * sol_fun`. -/
def base_sol_fun {n nb : ℕ} (map_to_base_space : Matrix (Fin nb) (Fin n) ℚ)
    (sol : Vec n) : Vec nb :=
  map_to_base_space.mulVec sol

/-- The base single-layer operator applied to the lifted solution,
`base_slp_times_sol = base_slp * base_sol_fun`. -/
def base_slp_times_sol {n nb : ℕ} (base_slp : Matrix (Fin nb) (Fin nb) ℚ)
    (map_to_base_space : Matrix (Fin nb) (Fin n) ℚ) (sol : Vec n) : Vec nb :=
  base_slp.mulVec (base_sol_fun map_to_base_space sol)

/-- The notebook's first estimator loop: for each element of the barycentric
grid, write `diameter(element) * gradient_norm**2` into the slot named by the
element's index (`surface_grad_norm` is the external gradient-norm primitive,
abstracted as `gradNorm`; the constant right-hand side contributes no term). -/
noncomputable def fillBaryErrors (baryIndex : Element → ℕ)
    (gradNorm : Element → ℝ) (elems : List Element) (arr : List ℝ) : List ℝ :=
  elems.foldl (fun a e => a.set (baryIndex e) (diameter e * gradNorm e ^ 2))
    arr

/-- The array `local_errors_squared_bary` after the loop, starting from
`np.zeros(N)` where `N` is the barycentric element count. -/
noncomputable def local_errors_squared_bary (baryIndex : Element → ℕ)
    (gradNorm : Element → ℝ) (elems : List Element) (N : ℕ) : List ℝ :=
  fillBaryErrors baryIndex gradNorm elems (List.replicate N 0)

theorem fillBaryErrors_length (bI : Element → ℕ) (gN : Element → ℝ)
    (elems : List Element) (arr : List ℝ) :
    (fillBaryErrors bI gN elems arr).length = arr.length := by
  induction elems generalizing arr with
  | nil => rfl
  | cons a t ih =>
    show (fillBaryErrors bI gN t (arr.set (bI a) _)).length = _
    rw [ih, List.length_set]

theorem fillBaryErrors_getD_of_notMem (bI : Element → ℕ) (gN : Element → ℝ)
    (elems : List Element) (arr : List ℝ) (i : ℕ)
    (h : ∀ a ∈ elems, bI a ≠ i) :
    (fillBaryErrors bI gN elems arr).getD i 0 = arr.getD i 0 := by
  induction elems generalizing arr with
  | nil => rfl
  | cons a t ih =>
    show (fillBaryErrors bI gN t (arr.set (bI a) _)).getD i 0 = _
    rw [ih _ fun x hx => h x (List.mem_cons_of_mem a hx),
      List.getD_eq_getElem?_getD, List.getD_eq_getElem?_getD,
      List.getElem?_set_ne (h a (List.mem_cons_self a t))]

theorem fillBaryErrors_getD_mem (bI : Element → ℕ) (gN : Element → ℝ)
    (elems : List Element) (arr : List ℝ) (e : Element) (hmem : e ∈ elems)
    (hnodup : (elems.map bI).Nodup) (hlt : bI e < arr.length) :
    (fillBaryErrors bI gN elems arr).getD (bI e) 0 =
      diameter e * gN e ^ 2 := by
  induction elems generalizing arr with
  | nil => cases hmem
  | cons a t ih =>
    rw [List.map_cons, List.nodup_cons] at hnodup
    obtain ⟨hna, hnt⟩ := hnodup
    rcases List.mem_cons.mp hmem with he | he
    · subst he
      show (fillBaryErrors bI gN t
        (arr.set (bI e) (diameter e * gN e ^ 2))).getD (bI e) 0 = _
      rw [fillBaryErrors_getD_of_notMem bI gN t _ (bI e) ?hne]
      · rw [List.getD_eq_getElem?_getD, List.getElem?_set_eq_of_lt _ hlt]
        rfl
      case hne =>
        intro x hx hcontr
        exact hna (hcontr ▸ List.mem_map_of_mem bI hx)
    · show (fillBaryErrors bI gN t (arr.set (bI a) _)).getD (bI e) 0 = _
      exact ih _ he hnt (by rw [List.length_set]; exact hlt)

/-- C4: for every element `e` of the barycentric refinement (with the index
map injective and in range), the squared local indicator the estimator stores
at `e`'s index equals `diam(e)` times the squared gradient norm of the base
single-layer operator applied to the lifted solution, with no term from the
constant right-hand side. -/
theorem bary_error_is_diam_times_gradsq {n nb : ℕ}
    (base_slp : Matrix (Fin nb) (Fin nb) ℚ)
    (map_to_base_space : Matrix (Fin nb) (Fin n) ℚ) (sol : Vec n)
    (surface_grad_norm : Vec nb → Element → ℝ) (baryIndex : Element → ℕ)
    (elems : List Element) (N : ℕ) (e : Element) (hmem : e ∈ elems)
    (hinj : (elems.map baryIndex).Nodup) (hlt : ∀ a ∈ elems, baryIndex a < N) :
    (local_errors_squared_bary baryIndex
        (surface_grad_norm (base_slp_times_sol base_slp map_to_base_space sol))
        elems N).getD (baryIndex e) 0 =
      diameter e *
        surface_grad_norm (base_slp_times_sol base_slp map_to_base_space sol)
          e ^ 2 := by
  rw [local_errors_squared_bary]
  exact fillBaryErrors_getD_mem baryIndex _ elems _ e hmem hinj
    (by rw [List.length_replicate]; exact hlt e hmem)

/-- A concrete reference triangle used by the witnesses. -/
def tri0 : Element := ⟨⟨0, 0, 0⟩, ⟨1, 0, 0⟩, ⟨0, 1, 0⟩⟩

/-- A trivial gradient-norm primitive used by the witnesses. -/
noncomputable def gradNormOne : Vec 1 → Element → ℝ := fun _ _ => 1

/-- Witness for C4 on a one-element barycentric grid with a concrete
triangle, index map and gradient primitive. -/
theorem bary_error_is_diam_times_gradsq_witness :
    (local_errors_squared_bary (fun _ => 0)
        (gradNormOne (base_slp_times_sol (1 : Mat 1) (1 : Mat 1) (onesVec 1)))
        [tri0] 1).getD 0 0 =
      diameter tri0 *
        gradNormOne (base_slp_times_sol (1 : Mat 1) (1 : Mat 1) (onesVec 1))
          tri0 ^ 2 :=
  bary_error_is_diam_times_gradsq (1 : Mat 1) (1 : Mat 1) (onesVec 1)
    gradNormOne (fun _ => 0) [tri0] 1 tri0 (by simp) (by simp)
    (by intro a ha; norm_num)

/-! ### Residual error estimator: aggregation to the original mesh -/

/-- The notebook's aggregation double loop: starting from `np.zeros`, entry
`m` accumulates `local_errors[m] += local_errors_squared_bary[bary_map[m, n]]`
over the columns `n` of row `m` of the descendant map. -/
noncomputable def aggregated_errors_sq (bary_map : List (List ℕ))
    (barySq : List ℝ) : List ℝ :=
  bary_map.map fun row => row.foldl (fun acc k => acc + barySq.getD k 0) 0

/-- The notebook's `local_errors` after `local_errors = np.sqrt(local_errors)`
(elementwise square root of the aggregated squares). -/
noncomputable def local_errors (bary_map : List (List ℕ)) (barySq : List ℝ) :
    List ℝ :=
  (aggregated_errors_sq bary_map barySq).map Real.sqrt

/-- Euclidean norm of a vector, `np.linalg.norm`. -/
noncomputable def npLinalgNorm (xs : List ℝ) : ℝ :=
  Real.sqrt ((xs.map fun t => t ^ 2).sum)

/-- The notebook's `total_error = np.linalg.norm(local_errors)`. -/
noncomputable def total_error (bary_map : List (List ℕ)) (barySq : List ℝ) :
    ℝ :=
  npLinalgNorm (local_errors bary_map barySq)

/-- The notebook's printed capacity-error estimate, `total_error**2`. -/
noncomputable def capacity_error_estimate (bary_map : List (List ℕ))
    (barySq : List ℝ) : ℝ :=
  total_error bary_map barySq ^ 2

/-- A left fold accumulating additions equals the starting value plus the
sum of the mapped list. -/
theorem foldl_add_eq_sum {β : Type} (f : β → ℝ) (row : List β) (init : ℝ) :
    row.foldl (fun acc b => acc + f b) init = init + (row.map f).sum := by
  induction row generalizing init with
  | nil => simp
  | cons a t ih =>
    rw [List.foldl_cons, ih, List.map_cons, List.sum_cons]
    ring

/-- Reading a list of nonnegative entries with default 0 is nonnegative. -/
theorem getD_nonneg (bs : List ℝ) (hpos : ∀ x ∈ bs, 0 ≤ x) (k : ℕ) :
    0 ≤ bs.getD k 0 := by
  induction bs generalizing k with
  | nil => simp [List.getD]
  | cons a t ih =>
    cases k with
    | zero => exact hpos a (List.mem_cons_self a t)
    | succ k =>
      exact ih (fun x hx => hpos x (List.mem_cons_of_mem a hx)) k

theorem aggregated_errors_sq_nonneg (bary_map : List (List ℕ))
    (barySq : List ℝ) (hpos : ∀ x ∈ barySq, 0 ≤ x) :
    ∀ y ∈ aggregated_errors_sq bary_map barySq, 0 ≤ y := by
  intro y hy
  rw [aggregated_errors_sq] at hy
  obtain ⟨row, _, hrow⟩ := List.mem_map.mp hy
  rw [← hrow, foldl_add_eq_sum, zero_add]
  refine List.sum_nonneg ?_
  intro x hx
  obtain ⟨k, _, hk⟩ := List.mem_map.mp hx
  exact hk ▸ getD_nonneg barySq hpos k

/-- C5: with nonnegative squared barycentric indicators, each aggregated
per-element indicator is the square root of the sum of the squared indicators
of its descendants, the global indicator is the Euclidean norm of the
per-element vector, and the reported capacity-error estimate is the square of
that global indicator — which in turn equals the plain sum of all aggregated
squares. -/
theorem aggregation_and_capacity_estimate (bary_map : List (List ℕ))
    (barySq : List ℝ) (hpos : ∀ x ∈ barySq, 0 ≤ x) :
    (∀ m : ℕ, m < bary_map.length →
      (local_errors bary_map barySq).getD m 0 =
        Real.sqrt (((bary_map.getD m []).map fun k => barySq.getD k 0).sum)) ∧
    total_error bary_map barySq =
      Real.sqrt (((local_errors bary_map barySq).map fun t => t ^ 2).sum) ∧
    capacity_error_estimate bary_map barySq =
      total_error bary_map barySq ^ 2 ∧
    capacity_error_estimate bary_map barySq =
      (aggregated_errors_sq bary_map barySq).sum := by
  have hsq : (local_errors bary_map barySq).map (fun t => t ^ 2) =
      aggregated_errors_sq bary_map barySq := by
    rw [local_errors, List.map_map]
    have : ∀ y ∈ aggregated_errors_sq bary_map barySq,
        ((fun t => t ^ 2) ∘ Real.sqrt) y = id y := by
      intro y hy
      have h0 := aggregated_errors_sq_nonneg bary_map barySq hpos y hy
      simp only [Function.comp, id]
      rw [sq, Real.mul_self_sqrt h0]
    rw [List.map_congr_left this, List.map_id]
  refine ⟨?_, rfl, rfl, ?_⟩
  · intro m hm
    rw [local_errors, aggregated_errors_sq, List.map_map,
      List.getD_eq_getElem?_getD, List.getElem?_map,
      List.getElem?_eq_getElem hm]
    simp only [Option.map_some', Option.getD_some, Function.comp_apply]
    rw [foldl_add_eq_sum, zero_add]
    congr 1
    rw [List.getD_eq_getElem?_getD, List.getElem?_eq_getElem hm]
    rfl
  · rw [capacity_error_estimate, total_error, npLinalgNorm, hsq, sq,
      Real.mul_self_sqrt]
    exact List.sum_nonneg (aggregated_errors_sq_nonneg bary_map barySq hpos)

/-- Witness for C5 on a concrete two-row descendant map and nonnegative
squared indicators. -/
theorem aggregation_and_capacity_estimate_witness :
    (∀ m : ℕ, m < ([[0, 1], [2]] : List (List ℕ)).length →
      (local_errors [[0, 1], [2]] [1, 2, 3]).getD m 0 =
        Real.sqrt
          ((([[0, 1], [2]] : List (List ℕ)).getD m [] |>.map
            fun k => ([1, 2, 3] : List ℝ).getD k 0).sum)) ∧
    total_error [[0, 1], [2]] [1, 2, 3] =
      Real.sqrt (((local_errors [[0, 1], [2]] [1, 2, 3]).map
        fun t => t ^ 2).sum) ∧
    capacity_error_estimate [[0, 1], [2]] [1, 2, 3] =
      total_error [[0, 1], [2]] [1, 2, 3] ^ 2 ∧
    capacity_error_estimate [[0, 1], [2]] [1, 2, 3] =
      (aggregated_errors_sq [[0, 1], [2]] [1, 2, 3]).sum :=
  aggregation_and_capacity_estimate [[0, 1], [2]] [1, 2, 3]
    (by intro x hx; fin_cases hx <;> norm_num)

/-! ### Barycentric refinement: fan-out, bijection and area partition -/

/-- Midpoint of two mesh points. -/
def midpoint3 (p q : Point) : Point :=
  ⟨(p.x + q.x) / 2, (p.y + q.y) / 2, (p.z + q.z) / 2⟩

/-- Centroid of a triangle. -/
def centroid3 (e : Element) : Point :=
  ⟨(e.c0.x + e.c1.x + e.c2.x) / 3, (e.c0.y + e.c1.y + e.c2.y) / 3,
   (e.c0.z + e.c1.z + e.c2.z) / 3⟩

/-- Modelled from the spec: one level of barycentric subdivision of a triangle
into six sub-triangles through the edge midpoints and the centroid, keeping
the parent's orientation (`grid.barycentric_grid()` on a single element). -/
def barySubdivide (e : Element) : List Element :=
  [⟨e.c0, midpoint3 e.c0 e.c1, centroid3 e⟩,
   ⟨midpoint3 e.c0 e.c1, e.c1, centroid3 e⟩,
   ⟨e.c1, midpoint3 e.c1 e.c2, centroid3 e⟩,
   ⟨midpoint3 e.c1 e.c2, e.c2, centroid3 e⟩,
   ⟨e.c2, midpoint3 e.c2 e.c0, centroid3 e⟩,
   ⟨midpoint3 e.c2 e.c0, e.c0, centroid3 e⟩]

/-- Cross product of a triangle's two edge vectors; its Euclidean length is
twice the triangle's area. -/
def crossVec (e : Element) : Point :=
  ⟨(e.c1.y - e.c0.y) * (e.c2.z - e.c0.z) - (e.c1.z - e.c0.z) * (e.c2.y - e.c0.y),
   (e.c1.z - e.c0.z) * (e.c2.x - e.c0.x) - (e.c1.x - e.c0.x) * (e.c2.z - e.c0.z),
   (e.c1.x - e.c0.x) * (e.c2.y - e.c0.y) - (e.c1.y - e.c0.y) * (e.c2.x - e.c0.x)⟩

/-- Scaling of a coordinate vector. -/
def Point.scale (c : ℚ) (p : Point) : Point := ⟨c * p.x, c * p.y, c * p.z⟩

/-- Area of a flat triangle: half the length of its edge cross product. -/
noncomputable def triangleArea (e : Element) : ℝ :=
  Real.sqrt (((crossVec e).normSq : ℝ)) / 2

/-- Modelled from the spec: `grid.barycentric_descendents_map()` — row `m`
lists the six descendant element indices of original element `m` in the
refinement; the canonical enumeration assigns them indices `6m .. 6m+5`. -/
def barycentric_descendents_map (numElements : ℕ) : List (List ℕ) :=
  (List.range numElements).map fun m => (List.range 6).map fun k => 6 * m + k

theorem normSq_scale (c : ℚ) (p : Point) :
    (Point.scale c p).normSq = c ^ 2 * p.normSq := by
  simp only [Point.scale, Point.normSq]
  ring

theorem triangleArea_of_crossVec_scale (s e : Element)
    (h : crossVec s = Point.scale (1 / 6) (crossVec e)) :
    triangleArea s = triangleArea e / 6 := by
  rw [triangleArea, triangleArea, h, normSq_scale]
  push_cast
  rw [Real.sqrt_mul (by positivity) (((crossVec e).normSq : ℝ))]
  rw [show ((1 : ℝ) / 6) ^ 2 = (1 / 6) * (1 / 6) by ring,
    Real.sqrt_mul_self (by norm_num)]
  ring

theorem barySubdivide_crossVec (e : Element) :
    ∀ s ∈ barySubdivide e, crossVec s = Point.scale (1 / 6) (crossVec e) := by
  intro s hs
  fin_cases hs <;>
    (simp only [crossVec, midpoint3, centroid3, Point.scale, Point.mk.injEq]
     refine ⟨by ring, by ring, by ring⟩)

theorem barycentric_descendents_map_flatten (E : ℕ) :
    (barycentric_descendents_map E).flatten = List.range (6 * E) := by
  induction E with
  | zero => rfl
  | succ n ih =>
    have h1 : barycentric_descendents_map (n + 1) =
        barycentric_descendents_map n ++
          [(List.range 6).map fun k => 6 * n + k] := by
      rw [barycentric_descendents_map, barycentric_descendents_map,
        show List.range (n + 1) = List.range n ++ [n] from List.range_succ n,
        List.map_append, List.map_singleton]
    rw [h1, List.flatten_append, ih, show 6 * (n + 1) = 6 * n + 6 by ring,
      List.range_add]
    simp

/-- C7: the descendant map has a fixed fan-out of six per parent element;
flattened, it is exactly the refinement's index set `range (6E)` (hence a
bijection onto it, and the descendant sets are pairwise disjoint and partition
the refined mesh); and the six descendants of a parent triangle have areas
summing to the parent's area. -/
theorem barycentric_map_fanout_partition (E : ℕ) (e : Element) :
    (∀ row ∈ barycentric_descendents_map E, row.length = 6) ∧
    (barycentric_descendents_map E).flatten = List.range (6 * E) ∧
    (barycentric_descendents_map E).Pairwise List.Disjoint ∧
    (barySubdivide e).length = 6 ∧
    ((barySubdivide e).map triangleArea).sum = triangleArea e := by
  refine ⟨?_, barycentric_descendents_map_flatten E, ?_, rfl, ?_⟩
  · intro row hrow
    obtain ⟨m, _, hm⟩ := List.mem_map.mp hrow
    rw [← hm]
    simp
  · have hnd : (barycentric_descendents_map E).flatten.Nodup := by
      rw [barycentric_descendents_map_flatten]
      exact List.nodup_range _
    exact (List.nodup_flatten.mp hnd).2
  · have hmap : (barySubdivide e).map triangleArea =
        List.replicate 6 (triangleArea e / 6) := by
      rw [List.eq_replicate_iff]
      refine ⟨by simp [barySubdivide], ?_⟩
      intro b hb
      obtain ⟨s, hs, hfs⟩ := List.mem_map.mp hb
      rw [← hfs]
      exact triangleArea_of_crossVec_scale s e (barySubdivide_crossVec e s hs)
    rw [hmap, List.sum_replicate]
    push_cast [nsmul_eq_mul]
    ring

/-- Witness for C7 at the concrete mesh size `E = 1` and the concrete
reference triangle. -/
theorem barycentric_map_fanout_partition_witness :
    (∀ row ∈ barycentric_descendents_map 1, row.length = 6) ∧
    (barycentric_descendents_map 1).flatten = List.range (6 * 1) ∧
    (barycentric_descendents_map 1).Pairwise List.Disjoint ∧
    (barySubdivide tri0).length = 6 ∧
    ((barySubdivide tri0).map triangleArea).sum = triangleArea tri0 :=
  barycentric_map_fanout_partition 1 tri0

/-! ### Unconditional reporting after the solve -/

/-- The triple returned by the GMRES call: the coefficient vector, the
convergence flag `info`, and the iteration count. -/
structure GmresReturn (n : ℕ) where
  x : Vec n
  info : ℤ
  it_count : ℕ

/-- Everything the notebook computes and prints after the linear solve. -/
structure PipelineOutputs where
  it_count : ℕ
  capacity : ℚ
  local_errors : List ℝ
  total_error : ℝ
  capacity_error_estimate : ℝ

/-- The notebook's whole post-solve computation as a function of the triple
returned by GMRES: it prints the iteration count and the capacity, then
computes the local, total and capacity error estimates; the `info` value is
never read anywhere downstream. -/
noncomputable def notebookReport {n nb : ℕ} (w : Vec n) (hypReg : Mat n)
    (base_slp : Matrix (Fin nb) (Fin nb) ℚ)
    (map_to_base_space : Matrix (Fin nb) (Fin n) ℚ)
    (surface_grad_norm : Vec nb → Element → ℝ) (baryIndex : Element → ℕ)
    (baryElems : List Element) (N : ℕ) (bary_map : List (List ℕ))
    (g : GmresReturn n) : PipelineOutputs :=
  let sol := sol_fun hypReg g.x
  let barySq := local_errors_squared_bary baryIndex
    (surface_grad_norm (base_slp_times_sol base_slp map_to_base_space sol))
    baryElems N
  { it_count := g.it_count
    capacity := reported_capacity w sol
    local_errors := local_errors bary_map barySq
    total_error := total_error bary_map barySq
    capacity_error_estimate := capacity_error_estimate bary_map barySq }

/-- C10: the notebook reports the capacity and all error indicators
unconditionally after the solve — the convergence flag `info` is never
inspected, so two GMRES results differing only in `info` yield identical
outputs. -/
theorem report_ignores_convergence_flag {n nb : ℕ} (w : Vec n) (hypReg : Mat n)
    (base_slp : Matrix (Fin nb) (Fin nb) ℚ)
    (map_to_base_space : Matrix (Fin nb) (Fin n) ℚ)
    (surface_grad_norm : Vec nb → Element → ℝ) (baryIndex : Element → ℕ)
    (baryElems : List Element) (N : ℕ) (bary_map : List (List ℕ))
    (x : Vec n) (i1 i2 : ℤ) (k : ℕ) :
    notebookReport w hypReg base_slp map_to_base_space surface_grad_norm
        baryIndex baryElems N bary_map ⟨x, i1, k⟩ =
      notebookReport w hypReg base_slp map_to_base_space surface_grad_norm
        baryIndex baryElems N bary_map ⟨x, i2, k⟩ := rfl

end ReentrantCube
